import Mathlib

/-!
Shallow embedding of the "rabbit in holes" puzzle core (Belief-State Engine and
Path Reconstructor) from `src/App.tsx`, together with proofs of the engine's
invariants and of the reconstruction algorithm's correctness properties.

Positions are modelled as `Int` (the source works with JS numbers and compares
`pos - 1 >= 0`, so truncated `Nat` subtraction would be unfaithful at the left
boundary).  The call to `Math.random()` inside `backtrackPath` is modelled by an
explicit choice function `choice : Nat → Nat`; the actual index used at loop
index `i` is `choice i % validParents.length`, which ranges over exactly the
indices `Math.floor(Math.random() * validParents.length)` can produce.
-/

namespace RabbitHoles

/-- `GameStatus` from `src/types.ts`: PLAYING | WON | LOST (LOST is declared but
never produced by any transition). -/
inductive GameStatus where
  | PLAYING : GameStatus
  | WON : GameStatus
  | LOST : GameStatus
deriving DecidableEq, Repr

/-- Turn record, one per completed inspection (`HistoryEntry` as used by
`src/App.tsx`: fields `day`, `checkedHoleIndex`, `found`,
`remainingPossibilitiesCount`). -/
structure HistoryEntry where
  day : Nat
  checkedHoleIndex : Int
  found : Bool
  remainingPossibilitiesCount : Nat
deriving DecidableEq, Repr

/-- The game-session state owned by the Belief-State Engine (`GameState` as
used by `src/App.tsx`). -/
structure GameState where
  holeCount : Int
  possibleHoles : List Int
  candidatesHistory : List (List Int)
  day : Nat
  history : List HistoryEntry
  status : GameStatus
  lastCheckedIndex : Option Int
  rabbitPath : List Int
deriving DecidableEq, Repr

/-- Placeholder entry for an out-of-bounds `history[i]` access (the JS source
would throw a TypeError there; all inputs considered by the theorems below
keep every access in bounds, so the placeholder is never reached). -/
def defaultEntry : HistoryEntry := ⟨0, -1, false, 0⟩

/-- The `validParents` filter inside `backtrackPath` (src/App.tsx lines 53-55):
candidates of that day that are not the checked hole and are adjacent to the
current position. -/
def validParents (candidatesForDay : List Int) (checkedHoleThatDay currentPos : Int) :
    List Int :=
  candidatesForDay.filter
    (fun p => decide (p ≠ checkedHoleThatDay ∧ (p - currentPos).natAbs = 1))

/-- The backward loop of `backtrackPath` (src/App.tsx lines 42-66).  `fuel` is
the number of remaining iterations; at `fuel = i + 1` the loop body runs with
loop index `i`, so starting from `fuel = candidatesHistory.length - 1` the
indices `candidatesHistory.length - 2, …, 0` are visited in order, exactly as
in the source.  The `else` branch is the source's no-valid-parent fallback
(`path.unshift(candidatesForDay[0])`, `currentPos` left unchanged); `getD 0
(-1)` stands for the out-of-bounds `candidatesForDay[0]` on an empty list. -/
def backtrackAux (choice : Nat → Nat) (candidatesHistory : List (List Int))
    (history : List HistoryEntry) : Nat → Int → List Int → List Int
  | 0, _, path => path
  | i + 1, currentPos, path =>
    let candidatesForDay := candidatesHistory.getD i []
    let checkedHoleThatDay := (history.getD i defaultEntry).checkedHoleIndex
    let vp := validParents candidatesForDay checkedHoleThatDay currentPos
    if 0 < vp.length then
      let parent := vp.getD (choice i % vp.length) 0
      backtrackAux choice candidatesHistory history i parent (parent :: path)
    else
      backtrackAux choice candidatesHistory history i currentPos
        (candidatesForDay.getD 0 (-1) :: path)

/-- `backtrackPath` from `src/App.tsx` (lines 31-68): backward reconstruction of
one concrete adjacency-valid rabbit trajectory from the per-day candidate
snapshots, the pre-win turn history and the winning hole. -/
def backtrackPath (choice : Nat → Nat) (candidatesHistory : List (List Int))
    (history : List HistoryEntry) (winningHole : Int) : List Int :=
  backtrackAux choice candidatesHistory history
    (candidatesHistory.length - 1) winningHole [winningHole]

/-- Boolean recording that the no-valid-parent fallback branch of
`backtrackPath` is never entered along the run: it mirrors `backtrackAux`
step for step (same parent selection) and returns `false` as soon as one
iteration finds `validParents` empty. -/
def noFallbackRun (choice : Nat → Nat) (candidatesHistory : List (List Int))
    (history : List HistoryEntry) : Nat → Int → Bool
  | 0, _ => true
  | i + 1, currentPos =>
    let vp := validParents (candidatesHistory.getD i [])
      ((history.getD i defaultEntry).checkedHoleIndex) currentPos
    if 0 < vp.length then
      noFallbackRun choice candidatesHistory history i
        (vp.getD (choice i % vp.length) 0)
    else false

/-- The nightly neighbor-expansion of `handleCheckHole` (src/App.tsx lines
118-124): every remaining candidate contributes `pos - 1` (if `≥ 0`) and
`pos + 1` (if `< holeCount`); the JS `Set` is modelled by `dedup` and the
ascending `.sort((a, b) => a - b)` on the resulting duplicate-free list by
insertion sort (any correct ascending sort of a duplicate-free list yields the
same list). -/
def expandCandidates (holeCount : Int) (afterCheckCandidates : List Int) : List Int :=
  List.insertionSort (fun a b => a ≤ b)
    ((afterCheckCandidates.flatMap fun pos =>
      (if 0 ≤ pos - 1 then [pos - 1] else []) ++
      (if pos + 1 < holeCount then [pos + 1] else [])).dedup)

/-- One full non-winning transition of the consistent-position set: eliminate
the checked hole, then expand to neighbors (elimination + expansion steps of
`handleCheckHole`). -/
def nextHoles (holeCount : Int) (possibleHoles : List Int) (selectedHole : Int) :
    List Int :=
  expandCandidates holeCount (possibleHoles.filter (fun h => decide (h ≠ selectedHole)))

/-- `handleCheckHole` from `src/App.tsx` (lines 72-145), restricted to its
state transition (the source's `selectedHole === null`/`isProcessing` guards
and the animation delay are UI concerns; the inspected position is the
parameter).  The win test is the source's
`possibleHoles.length === 1 && possibleHoles[0] === selectedHole`. -/
def handleCheckHole (choice : Nat → Nat) (state : GameState) (selectedHole : Int) :
    GameState :=
  if state.status ≠ GameStatus.PLAYING then state
  else if state.possibleHoles.length = 1 ∧ state.possibleHoles.getD 0 0 = selectedHole then
    { state with
      status := GameStatus.WON
      history := state.history ++ [⟨state.day, selectedHole, true, 0⟩]
      lastCheckedIndex := some selectedHole
      rabbitPath := backtrackPath choice state.candidatesHistory state.history selectedHole }
  else
    let afterCheckCandidates := state.possibleHoles.filter (fun h => decide (h ≠ selectedHole))
    let nextPossibleHoles := expandCandidates state.holeCount afterCheckCandidates
    { state with
      day := state.day + 1
      history := state.history ++
        [⟨state.day, selectedHole, false, afterCheckCandidates.length⟩]
      possibleHoles := nextPossibleHoles
      candidatesHistory := state.candidatesHistory ++ [nextPossibleHoles]
      lastCheckedIndex := some selectedHole }

/-- `resetGame` from `src/App.tsx` (lines 148-162): fresh state for a given
hole count.  `Array.from({length: n}, (_, i) => i)` yields the positions
`0 … n-1` and the empty list for `n ≤ 0` (JS `ToLength` clamps negatives to
`0`), which `n.toNat` reproduces. -/
def resetGame (newHoleCount : Int) : GameState :=
  let allHoles := List.map (fun i : Nat => (i : Int)) (List.range newHoleCount.toNat)
  { holeCount := newHoleCount
    possibleHoles := allHoles
    candidatesHistory := [allHoles]
    day := 1
    history := []
    status := GameStatus.PLAYING
    lastCheckedIndex := none
    rabbitPath := [] }

/-- A play of the game: fold the inspection transition over a list of selected
holes, starting from a fresh state.  The reachable states of the engine are
exactly the values of `runGame`. -/
def runGame (choice : Nat → Nat) (holeCount : Int) (moves : List Int) : GameState :=
  moves.foldl (handleCheckHole choice) (resetGame holeCount)

/-- A fixed choice function, used to instantiate theorems at concrete runs. -/
def zeroChoice : Nat → Nat := fun _ => 0

/-- Backward feasibility of a snapshot history: each day's snapshot arises from
the previous one by the engine's elimination + expansion rule with that day's
checked hole.  This is the part of the reachable-state invariant that the path
reconstruction proofs rest on. -/
def BackFeasible (holeCount : Int) (candidatesHistory : List (List Int))
    (history : List HistoryEntry) : Prop :=
  ∀ i, i + 1 < candidatesHistory.length →
    candidatesHistory.getD (i + 1) [] =
      nextHoles holeCount (candidatesHistory.getD i [])
        ((history.getD i defaultEntry).checkedHoleIndex)

/-- Invariant satisfied by every reachable game state. -/
structure Inv (s : GameState) : Prop where
  range : ∀ q ∈ s.possibleHoles, 0 ≤ q ∧ q < s.holeCount
  nodup : s.possibleHoles.Nodup
  snapsNe : s.candidatesHistory ≠ []
  count : s.candidatesHistory.length = 1 + (s.history.filter (fun e => !e.found)).length
  allNonWin : s.status = GameStatus.PLAYING → ∀ e ∈ s.history, e.found = false
  lastSnap : s.status = GameStatus.PLAYING →
    s.candidatesHistory.getLast? = some s.possibleHoles
  chain : BackFeasible s.holeCount s.candidatesHistory s.history

/-! ### List helper lemmas -/

theorem length_one_getD_iff (l : List Int) (p : Int) :
    (l.length = 1 ∧ l.getD 0 0 = p) ↔ l = [p] := by
  cases l with
  | nil => simp
  | cons a t =>
    cases t with
    | nil => simp [List.getD]
    | cons b u => simp

theorem getD_mem {α : Type} {l : List α} {n : Nat} (d : α) (h : n < l.length) :
    l.getD n d ∈ l := by
  rw [List.getD_eq_getElem?_getD, List.getElem?_eq_getElem h]
  exact List.getElem_mem h

theorem getLast?_eq_getD {α : Type} (l : List α) (d : α) (h : l ≠ []) :
    l.getLast? = some (l.getD (l.length - 1) d) := by
  rw [List.getLast?_eq_getElem? l, List.getD_eq_getElem?_getD,
    List.getElem?_eq_getElem (by have := List.length_pos.mpr h; omega)]
  rfl

theorem mem_expandCandidates {holeCount : Int} {cands : List Int} {x : Int} :
    x ∈ expandCandidates holeCount cands ↔
      ∃ q ∈ cands, (x = q - 1 ∧ 0 ≤ q - 1) ∨ (x = q + 1 ∧ q + 1 < holeCount) := by
  rw [expandCandidates, (List.perm_insertionSort _ _).mem_iff, List.mem_dedup,
    List.mem_flatMap]
  constructor
  · rintro ⟨q, hq, hx⟩
    refine ⟨q, hq, ?_⟩
    rcases List.mem_append.mp hx with h | h
    · by_cases hg : 0 ≤ q - 1
      · rw [if_pos hg] at h
        exact Or.inl ⟨List.mem_singleton.mp h, hg⟩
      · rw [if_neg hg] at h
        exact absurd h (List.not_mem_nil x)
    · by_cases hg : q + 1 < holeCount
      · rw [if_pos hg] at h
        exact Or.inr ⟨List.mem_singleton.mp h, hg⟩
      · rw [if_neg hg] at h
        exact absurd h (List.not_mem_nil x)
  · rintro ⟨q, hq, h | h⟩
    · exact ⟨q, hq, List.mem_append.mpr (Or.inl (by rw [if_pos h.2]; simp [h.1]))⟩
    · exact ⟨q, hq, List.mem_append.mpr (Or.inr (by rw [if_pos h.2]; simp [h.1]))⟩

theorem nodup_expandCandidates (holeCount : Int) (cands : List Int) :
    (expandCandidates holeCount cands).Nodup :=
  (List.perm_insertionSort _ _).nodup_iff.mpr (List.nodup_dedup _)

theorem mem_nextHoles {holeCount : Int} {cands : List Int} {p x : Int} :
    x ∈ nextHoles holeCount cands p ↔
      ∃ q ∈ cands, q ≠ p ∧
        ((x = q - 1 ∧ 0 ≤ q - 1) ∨ (x = q + 1 ∧ q + 1 < holeCount)) := by
  rw [nextHoles, mem_expandCandidates]
  constructor
  · rintro ⟨q, hq, hx⟩
    have hm := List.mem_filter.mp hq
    exact ⟨q, hm.1, of_decide_eq_true hm.2, hx⟩
  · rintro ⟨q, hq, hne, hx⟩
    exact ⟨q, List.mem_filter.mpr ⟨hq, decide_eq_true hne⟩, hx⟩

theorem mem_validParents {cands : List Int} {checked cur x : Int} :
    x ∈ validParents cands checked cur ↔
      x ∈ cands ∧ x ≠ checked ∧ (x - cur).natAbs = 1 := by
  rw [validParents, List.mem_filter]
  constructor
  · rintro ⟨h1, h2⟩
    exact ⟨h1, of_decide_eq_true h2⟩
  · rintro ⟨h1, h2⟩
    exact ⟨h1, decide_eq_true h2⟩

/-! ### Transition equations for `handleCheckHole` -/

theorem checkHole_not_playing (choice : Nat → Nat) (s : GameState) (p : Int)
    (h : s.status ≠ GameStatus.PLAYING) : handleCheckHole choice s p = s := by
  rw [handleCheckHole, if_pos h]

theorem checkHole_win (choice : Nat → Nat) (s : GameState) (p : Int)
    (h1 : s.status = GameStatus.PLAYING) (h2 : s.possibleHoles = [p]) :
    handleCheckHole choice s p =
      { s with
        status := GameStatus.WON
        history := s.history ++ [⟨s.day, p, true, 0⟩]
        lastCheckedIndex := some p
        rabbitPath := backtrackPath choice s.candidatesHistory s.history p } := by
  rw [handleCheckHole, if_neg (by rw [h1]; exact fun hc => hc rfl),
    if_pos ((length_one_getD_iff _ _).mpr h2)]

theorem checkHole_nonwin (choice : Nat → Nat) (s : GameState) (p : Int)
    (h1 : s.status = GameStatus.PLAYING) (h2 : s.possibleHoles ≠ [p]) :
    handleCheckHole choice s p =
      { s with
        day := s.day + 1
        history := s.history ++
          [⟨s.day, p, false,
            (s.possibleHoles.filter (fun h => decide (h ≠ p))).length⟩]
        possibleHoles := nextHoles s.holeCount s.possibleHoles p
        candidatesHistory := s.candidatesHistory ++ [nextHoles s.holeCount s.possibleHoles p]
        lastCheckedIndex := some p } := by
  rw [handleCheckHole, if_neg (by rw [h1]; exact fun hc => hc rfl),
    if_neg (fun hc => h2 ((length_one_getD_iff _ _).mp hc))]
  rfl

theorem holeCount_checkHole (choice : Nat → Nat) (s : GameState) (p : Int) :
    (handleCheckHole choice s p).holeCount = s.holeCount := by
  by_cases h1 : s.status = GameStatus.PLAYING
  · by_cases h2 : s.possibleHoles = [p]
    · rw [checkHole_win choice s p h1 h2]
    · rw [checkHole_nonwin choice s p h1 h2]
  · rw [checkHole_not_playing choice s p h1]

/-! ### Preservation of the reachable-state invariant -/

theorem hist_len_of_playing (s : GameState) (inv : Inv s)
    (h1 : s.status = GameStatus.PLAYING) :
    s.history.length + 1 = s.candidatesHistory.length := by
  have hf : s.history.filter (fun e => !e.found) = s.history :=
    List.filter_eq_self.mpr (fun e he => by rw [inv.allNonWin h1 e he]; rfl)
  have hc := inv.count
  rw [hf] at hc
  omega

theorem inv_reset (n : Int) : Inv (resetGame n) := by
  refine ⟨?_, ?_, ?_, ?_, ?_, ?_, ?_⟩
  · intro q hq
    have hq2 : q ∈ List.map (fun i : Nat => (i : Int)) (List.range n.toNat) := hq
    obtain ⟨i, hi, rfl⟩ := List.mem_map.mp hq2
    rw [List.mem_range] at hi
    show 0 ≤ (i : Int) ∧ (i : Int) < n
    constructor <;> omega
  · show (List.map (fun i : Nat => (i : Int)) (List.range n.toNat)).Nodup
    refine List.Nodup.map ?_ (List.nodup_range _)
    intro a b hab
    simp only [] at hab
    exact_mod_cast hab
  · exact List.cons_ne_nil _ _
  · rfl
  · intro _ e he
    exact absurd he (List.not_mem_nil e)
  · intro _
    rfl
  · intro i hi
    have h1 : (resetGame n).candidatesHistory.length = 1 := rfl
    rw [h1] at hi
    exact absurd hi (by omega)

theorem inv_step (choice : Nat → Nat) (s : GameState) (p : Int) (inv : Inv s) :
    Inv (handleCheckHole choice s p) := by
  by_cases h1 : s.status = GameStatus.PLAYING
  · by_cases h2 : s.possibleHoles = [p]
    · -- winning transition: possibleHoles and candidatesHistory unchanged,
      -- a found-entry appended, status WON
      rw [checkHole_win choice s p h1 h2]
      have hlen := hist_len_of_playing s inv h1
      refine ⟨inv.range, inv.nodup, inv.snapsNe, ?_, ?_, ?_, ?_⟩
      · show s.candidatesHistory.length =
          1 + ((s.history ++ [(⟨s.day, p, true, 0⟩ : HistoryEntry)]).filter
              (fun e => !e.found)).length
        have hone : ((List.filter (fun e => !e.found)
            [(⟨s.day, p, true, 0⟩ : HistoryEntry)])).length = 0 := rfl
        have hc := inv.count
        rw [List.filter_append, List.length_append, hone]
        omega
      · intro hst
        simp at hst
      · intro hst
        simp at hst
      · intro i hi
        have hi2 : i + 1 < s.candidatesHistory.length := hi
        have hii : i < s.history.length := by omega
        show s.candidatesHistory.getD (i + 1) [] =
          nextHoles s.holeCount (s.candidatesHistory.getD i [])
            ((s.history ++ [(⟨s.day, p, true, 0⟩ : HistoryEntry)]).getD i
                defaultEntry).checkedHoleIndex
        rw [List.getD_append _ _ _ _ hii]
        exact inv.chain i hi2
    · -- non-winning transition
      rw [checkHole_nonwin choice s p h1 h2]
      have hlen := hist_len_of_playing s inv h1
      have hpos : 0 < s.candidatesHistory.length := List.length_pos.mpr inv.snapsNe
      refine ⟨?_, ?_, ?_, ?_, ?_, ?_, ?_⟩
      · intro q hq
        have hq2 : q ∈ nextHoles s.holeCount s.possibleHoles p := hq
        obtain ⟨r, hr, _, hcase⟩ := mem_nextHoles.mp hq2
        have hrr := inv.range r hr
        show 0 ≤ q ∧ q < s.holeCount
        rcases hcase with ⟨rfl, hg⟩ | ⟨rfl, hg⟩ <;> constructor <;> omega
      · exact nodup_expandCandidates _ _
      · exact List.append_ne_nil_of_right_ne_nil _ (List.cons_ne_nil _ _)
      · show (s.candidatesHistory ++ [nextHoles s.holeCount s.possibleHoles p]).length =
          1 + ((s.history ++
            [(⟨s.day, p, false,
              (s.possibleHoles.filter (fun h => decide (h ≠ p))).length⟩ :
                HistoryEntry)]).filter (fun e => !e.found)).length
        have hone : ((List.filter (fun e => !e.found)
            [(⟨s.day, p, false,
              (s.possibleHoles.filter (fun h => decide (h ≠ p))).length⟩ :
                HistoryEntry)])).length = 1 := rfl
        have hc := inv.count
        rw [List.filter_append, List.length_append, List.length_append, hone]
        simp only [List.length_cons, List.length_nil]
        omega
      · intro _ e he
        have he2 : e ∈ s.history ++
            [(⟨s.day, p, false,
              (s.possibleHoles.filter (fun h => decide (h ≠ p))).length⟩ :
                HistoryEntry)] := he
        rcases List.mem_append.mp he2 with h | h
        · exact inv.allNonWin h1 e h
        · rw [List.mem_singleton.mp h]
      · intro _
        exact List.getLast?_concat _
      · intro i hi
        have hi2 : i + 1 < (s.candidatesHistory ++
            [nextHoles s.holeCount s.possibleHoles p]).length := hi
        rw [List.length_append] at hi2
        simp only [List.length_cons, List.length_nil] at hi2
        show (s.candidatesHistory ++ [nextHoles s.holeCount s.possibleHoles p]).getD (i + 1) [] =
          nextHoles s.holeCount
            ((s.candidatesHistory ++ [nextHoles s.holeCount s.possibleHoles p]).getD i [])
            (((s.history ++
              [(⟨s.day, p, false,
                (s.possibleHoles.filter (fun h => decide (h ≠ p))).length⟩ :
                  HistoryEntry)]).getD i defaultEntry).checkedHoleIndex)
        by_cases hlt : i + 1 < s.candidatesHistory.length
        · rw [List.getD_append _ _ _ _ hlt,
            List.getD_append _ _ _ _ (by omega : i < s.candidatesHistory.length),
            List.getD_append _ _ _ _ (by omega : i < s.history.length)]
          exact inv.chain i hlt
        · rw [List.getD_append_right _ _ _ _
              (by omega : s.candidatesHistory.length ≤ i + 1),
            (by omega : i + 1 - s.candidatesHistory.length = 0),
            List.getD_append _ _ _ _ (by omega : i < s.candidatesHistory.length),
            List.getD_append_right _ _ _ _ (by omega : s.history.length ≤ i),
            (by omega : i - s.history.length = 0)]
          have hl := inv.lastSnap h1
          rw [getLast?_eq_getD _ ([] : List Int) inv.snapsNe] at hl
          have hgl : s.candidatesHistory.getD (s.candidatesHistory.length - 1) [] =
              s.possibleHoles := Option.some.inj hl
          rw [(by omega : i = s.candidatesHistory.length - 1), hgl]
          rfl
  · rw [checkHole_not_playing choice s p h1]
    exact inv


theorem inv_foldl (choice : Nat → Nat) (moves : List Int) (s : GameState)
    (inv : Inv s) : Inv (moves.foldl (handleCheckHole choice) s) := by
  induction moves generalizing s with
  | nil => exact inv
  | cons m t ih => exact ih _ (inv_step choice s m inv)

theorem inv_run (choice : Nat → Nat) (n : Int) (moves : List Int) :
    Inv (runGame choice n moves) :=
  inv_foldl choice moves (resetGame n) (inv_reset n)

theorem holeCount_foldl (choice : Nat → Nat) (moves : List Int) (s : GameState) :
    (moves.foldl (handleCheckHole choice) s).holeCount = s.holeCount := by
  induction moves generalizing s with
  | nil => rfl
  | cons m t ih => rw [List.foldl_cons, ih, holeCount_checkHole]

theorem holeCount_run (choice : Nat → Nat) (n : Int) (moves : List Int) :
    (runGame choice n moves).holeCount = n :=
  holeCount_foldl choice moves (resetGame n)

/-! ### Nonemptiness of the consistent-position set -/

theorem nonempty_step (choice : Nat → Nat) (s : GameState) (p : Int)
    (hN : 2 ≤ s.holeCount) (inv : Inv s) (hne : s.possibleHoles ≠ []) :
    (handleCheckHole choice s p).possibleHoles ≠ [] := by
  by_cases h1 : s.status = GameStatus.PLAYING
  · by_cases h2 : s.possibleHoles = [p]
    · rw [checkHole_win choice s p h1 h2]
      exact hne
    · rw [checkHole_nonwin choice s p h1 h2]
      show nextHoles s.holeCount s.possibleHoles p ≠ []
      have hafter : s.possibleHoles.filter (fun h => decide (h ≠ p)) ≠ [] := by
        intro hempty
        apply h2
        have hall : ∀ x ∈ s.possibleHoles, x = p := by
          intro x hx
          by_contra hxp
          have hmem : x ∈ s.possibleHoles.filter (fun h => decide (h ≠ p)) :=
            List.mem_filter.mpr ⟨hx, decide_eq_true hxp⟩
          rw [hempty] at hmem
          exact absurd hmem (List.not_mem_nil x)
        obtain ⟨a, t, hl⟩ := List.exists_cons_of_ne_nil hne
        have ha : a = p := hall a (by rw [hl]; exact List.mem_cons_self a t)
        have hnd := inv.nodup
        rw [hl] at hnd ⊢
        cases ht : t with
        | nil => rw [ha]
        | cons b u =>
          exfalso
          have hb : b = p := hall b
            (by rw [hl, ht]; exact List.mem_cons_of_mem _ (List.mem_cons_self b u))
          rw [ht] at hnd
          have hna : a ∉ b :: u := (List.nodup_cons.mp hnd).1
          exact hna (by rw [ha, hb]; exact List.mem_cons_self p u)
      obtain ⟨q, hq⟩ := List.exists_mem_of_ne_nil _ hafter
      have hqm := List.mem_filter.mp hq
      have hqp : q ≠ p := of_decide_eq_true hqm.2
      have hqr := inv.range q hqm.1
      by_cases hq1 : q + 1 < s.holeCount
      · exact List.ne_nil_of_mem (mem_nextHoles.mpr ⟨q, hqm.1, hqp, Or.inr ⟨rfl, hq1⟩⟩)
      · exact List.ne_nil_of_mem (mem_nextHoles.mpr ⟨q, hqm.1, hqp, Or.inl ⟨rfl, by omega⟩⟩)
  · rw [checkHole_not_playing choice s p h1]
    exact hne

theorem nonempty_foldl (choice : Nat → Nat) (moves : List Int) (s : GameState)
    (hN : 2 ≤ s.holeCount) (inv : Inv s) (hne : s.possibleHoles ≠ []) :
    (moves.foldl (handleCheckHole choice) s).possibleHoles ≠ [] := by
  induction moves generalizing s with
  | nil => exact hne
  | cons m t ih =>
    refine ih (handleCheckHole choice s m) ?_ (inv_step choice s m inv)
      (nonempty_step choice s m hN inv hne)
    rw [holeCount_checkHole]
    exact hN

theorem nonempty_reset (n : Int) (hn : 1 ≤ n) : (resetGame n).possibleHoles ≠ [] := by
  show List.map (fun i : Nat => (i : Int)) (List.range n.toNat) ≠ []
  intro hcon
  have := congrArg List.length hcon
  rw [List.length_map, List.length_range] at this
  simp only [List.length_nil] at this
  omega

/-! ### Correctness of the backward path reconstruction -/

theorem getD_append_self {α : Type} (l l2 : List α) (d : α) :
    (l ++ l2).getD l.length d = l2.getD 0 d := by
  rw [List.getD_append_right _ _ _ _ (le_refl _), Nat.sub_self]

theorem getD_zero_head {α : Type} (l : List α) (a d : α) (h : l.head? = some a) :
    l.getD 0 d = a := by
  cases l with
  | nil => cases h
  | cons b t => exact Option.some.inj h

theorem validParents_ne_nil (N : Int) (cands : List Int) (checked cur : Int)
    (h : cur ∈ nextHoles N cands checked) : validParents cands checked cur ≠ [] := by
  obtain ⟨q, hq, hqc, hcase⟩ := mem_nextHoles.mp h
  refine List.ne_nil_of_mem (a := q) (mem_validParents.mpr ⟨hq, hqc, ?_⟩)
  rcases hcase with ⟨rfl, _⟩ | ⟨rfl, _⟩ <;> omega

theorem backtrackAux_succ_pos (choice : Nat → Nat) (ch : List (List Int))
    (hist : List HistoryEntry) (k : Nat) (cur : Int) (acc : List Int)
    (h : 0 < (validParents (ch.getD k [])
      ((hist.getD k defaultEntry).checkedHoleIndex) cur).length) :
    backtrackAux choice ch hist (k + 1) cur acc =
      backtrackAux choice ch hist k
        ((validParents (ch.getD k []) ((hist.getD k defaultEntry).checkedHoleIndex) cur).getD
          (choice k % (validParents (ch.getD k [])
            ((hist.getD k defaultEntry).checkedHoleIndex) cur).length) 0)
        (((validParents (ch.getD k []) ((hist.getD k defaultEntry).checkedHoleIndex) cur).getD
          (choice k % (validParents (ch.getD k [])
            ((hist.getD k defaultEntry).checkedHoleIndex) cur).length) 0) :: acc) := by
  simp only [backtrackAux]
  rw [if_pos h]

theorem noFallbackRun_succ_pos (choice : Nat → Nat) (ch : List (List Int))
    (hist : List HistoryEntry) (k : Nat) (cur : Int)
    (h : 0 < (validParents (ch.getD k [])
      ((hist.getD k defaultEntry).checkedHoleIndex) cur).length) :
    noFallbackRun choice ch hist (k + 1) cur =
      noFallbackRun choice ch hist k
        ((validParents (ch.getD k []) ((hist.getD k defaultEntry).checkedHoleIndex) cur).getD
          (choice k % (validParents (ch.getD k [])
            ((hist.getD k defaultEntry).checkedHoleIndex) cur).length) 0) := by
  simp only [noFallbackRun]
  rw [if_pos h]

theorem backtrackAux_spec (choice : Nat → Nat) (N : Int)
    (candHist : List (List Int)) (hist : List HistoryEntry)
    (hfeas : BackFeasible N candHist hist) :
    ∀ fuel cur acc, fuel < candHist.length →
      cur ∈ candHist.getD fuel [] →
      acc.head? = some cur →
      noFallbackRun choice candHist hist fuel cur = true ∧
      (∃ pre, backtrackAux choice candHist hist fuel cur acc = pre ++ acc ∧
        pre.length = fuel) ∧
      (∀ j, j < fuel →
        (backtrackAux choice candHist hist fuel cur acc).getD j 0 ∈ candHist.getD j [] ∧
        (backtrackAux choice candHist hist fuel cur acc).getD j 0 ≠
          (hist.getD j defaultEntry).checkedHoleIndex ∧
        ((backtrackAux choice candHist hist fuel cur acc).getD j 0 -
          (backtrackAux choice candHist hist fuel cur acc).getD (j + 1) 0).natAbs = 1) := by
  intro fuel
  induction fuel with
  | zero =>
    intro cur acc _ _ _
    exact ⟨rfl, ⟨[], rfl, rfl⟩, fun j hj => absurd hj (by omega)⟩
  | succ k ih =>
    intro cur acc hflt hcur hhead
    have hfk := hfeas k hflt
    have hcur2 : cur ∈ nextHoles N (candHist.getD k [])
        ((hist.getD k defaultEntry).checkedHoleIndex) := by
      rw [← hfk]
      exact hcur
    have hvpne := validParents_ne_nil N (candHist.getD k [])
      ((hist.getD k defaultEntry).checkedHoleIndex) cur hcur2
    have hvplen : 0 < (validParents (candHist.getD k [])
        ((hist.getD k defaultEntry).checkedHoleIndex) cur).length :=
      List.length_pos.mpr hvpne
    have hidx : choice k % (validParents (candHist.getD k [])
        ((hist.getD k defaultEntry).checkedHoleIndex) cur).length <
        (validParents (candHist.getD k [])
          ((hist.getD k defaultEntry).checkedHoleIndex) cur).length :=
      Nat.mod_lt _ hvplen
    have hpmem := getD_mem (0 : Int) hidx
    obtain ⟨hpc, hpch, hpadj⟩ := mem_validParents.mp hpmem
    rw [backtrackAux_succ_pos choice candHist hist k cur acc hvplen,
      noFallbackRun_succ_pos choice candHist hist k cur hvplen]
    set parent := (validParents (candHist.getD k [])
      ((hist.getD k defaultEntry).checkedHoleIndex) cur).getD
        (choice k % (validParents (candHist.getD k [])
          ((hist.getD k defaultEntry).checkedHoleIndex) cur).length) 0 with hpdef
    obtain ⟨ihnf, ⟨pre, hpre, hprelen⟩, ihprops⟩ :=
      ih parent (parent :: acc) (by omega) hpc rfl
    refine ⟨ihnf, ⟨pre ++ [parent], ?_, ?_⟩, ?_⟩
    · rw [hpre, List.append_assoc]
      rfl
    · rw [List.length_append, hprelen]
      rfl
    · intro j hj
      by_cases hjk : j < k
      · exact ihprops j hjk
      · have hjeq : j = k := by omega
        subst hjeq
        have e1 : (pre ++ parent :: acc).getD j 0 = parent := by
          rw [← hprelen, getD_append_self]
          rfl
        have e2 : (pre ++ parent :: acc).getD (j + 1) 0 = cur := by
          rw [← hprelen, List.getD_append_right _ _ _ _ (by omega),
            (by omega : pre.length + 1 - pre.length = 1)]
          exact getD_zero_head acc cur 0 hhead
        rw [hpre, e1, e2]
        exact ⟨hpc, hpch, hpadj⟩

theorem backtrackPath_win_spec (choice : Nat → Nat) (s : GameState) (p : Int)
    (inv : Inv s) (hs : s.status = GameStatus.PLAYING) (hwin : s.possibleHoles = [p]) :
    (backtrackPath choice s.candidatesHistory s.history p).length =
      s.candidatesHistory.length ∧
    (backtrackPath choice s.candidatesHistory s.history p).getLast? = some p ∧
    (∀ j, j + 1 < s.candidatesHistory.length →
      ((backtrackPath choice s.candidatesHistory s.history p).getD j 0 -
        (backtrackPath choice s.candidatesHistory s.history p).getD (j + 1) 0).natAbs = 1 ∧
      (backtrackPath choice s.candidatesHistory s.history p).getD j 0 ≠
        (s.history.getD j defaultEntry).checkedHoleIndex) ∧
    noFallbackRun choice s.candidatesHistory s.history
      (s.candidatesHistory.length - 1) p = true := by
  have hpos : 0 < s.candidatesHistory.length := List.length_pos.mpr inv.snapsNe
  have hlast := inv.lastSnap hs
  rw [getLast?_eq_getD _ ([] : List Int) inv.snapsNe] at hlast
  have hmem : p ∈ s.candidatesHistory.getD (s.candidatesHistory.length - 1) [] := by
    rw [Option.some.inj hlast, hwin]
    exact List.mem_cons_self p []
  obtain ⟨hnf, ⟨pre, hpre, hprelen⟩, hprops⟩ :=
    backtrackAux_spec choice s.holeCount s.candidatesHistory s.history inv.chain
      (s.candidatesHistory.length - 1) p [p] (by omega) hmem rfl
  refine ⟨?_, ?_, ?_, hnf⟩
  · rw [backtrackPath, hpre, List.length_append, hprelen, List.length_singleton]
    omega
  · rw [backtrackPath, hpre]
    exact List.getLast?_concat pre
  · intro j hj
    have hp := hprops j (by omega)
    rw [backtrackPath]
    exact ⟨hp.2.2, hp.2.1⟩

/-! ### Claim theorems -/

/-- C1: in a PLAYING state, inspecting position `p` of the board declares a win
(status becomes WON and a turn record with `found = true` is appended) if and
only if the consistent-position set `possibleHoles` at that moment is exactly
the singleton `[p]`. -/
theorem inspect_win_iff_singleton (choice : Nat → Nat) (s : GameState) (p : Int)
    (hs : s.status = GameStatus.PLAYING) (hp0 : 0 ≤ p) (hpN : p < s.holeCount) :
    ((handleCheckHole choice s p).status = GameStatus.WON ∧
      ∃ e, (handleCheckHole choice s p).history = s.history ++ [e] ∧ e.found = true) ↔
    s.possibleHoles = [p] := by
  constructor
  · rintro ⟨hw, -⟩
    by_contra h2
    rw [checkHole_nonwin choice s p hs h2] at hw
    have hw2 : s.status = GameStatus.WON := hw
    rw [hs] at hw2
    exact absurd hw2 (by decide)
  · intro h2
    rw [checkHole_win choice s p hs h2]
    exact ⟨rfl, ⟨⟨s.day, p, true, 0⟩, rfl, rfl⟩⟩

/-- Witness for C1 at the concrete day-2 state of Scenario A/B (N = 3, after
inspecting hole 1 the set is `[1]`, and inspecting 1 again wins). -/
theorem inspect_win_iff_singleton_witness :
    (runGame zeroChoice 3 [1]).status = GameStatus.PLAYING ∧
    (0 : Int) ≤ 1 ∧ (1 : Int) < (runGame zeroChoice 3 [1]).holeCount ∧
    (((handleCheckHole zeroChoice (runGame zeroChoice 3 [1]) 1).status = GameStatus.WON ∧
      ∃ e, (handleCheckHole zeroChoice (runGame zeroChoice 3 [1]) 1).history =
        (runGame zeroChoice 3 [1]).history ++ [e] ∧ e.found = true) ↔
      (runGame zeroChoice 3 [1]).possibleHoles = [1]) :=
  ⟨by decide, by decide, by decide,
    inspect_win_iff_singleton zeroChoice (runGame zeroChoice 3 [1]) 1
      (by decide) (by decide) (by decide)⟩

/-- C2: after a non-winning inspection of `p` from a reachable PLAYING state,
membership in the new consistent-position set is equivalent to being one
adjacency step away from some element of the old set other than `p`, within
the board range `[0, holeCount)`. -/
theorem nonwin_inspect_expansion (choice choice2 : Nat → Nat) (n : Int)
    (moves : List Int) (p x : Int)
    (hs : (runGame choice n moves).status = GameStatus.PLAYING)
    (hnw : (runGame choice n moves).possibleHoles ≠ [p]) :
    x ∈ (handleCheckHole choice2 (runGame choice n moves) p).possibleHoles ↔
      ((∃ q ∈ (runGame choice n moves).possibleHoles, q ≠ p ∧ (x = q - 1 ∨ x = q + 1)) ∧
        0 ≤ x ∧ x < (runGame choice n moves).holeCount) := by
  have hrange := (inv_run choice n moves).range
  rw [checkHole_nonwin choice2 (runGame choice n moves) p hs hnw]
  constructor
  · intro hx
    have hx2 : x ∈ nextHoles (runGame choice n moves).holeCount
        (runGame choice n moves).possibleHoles p := hx
    obtain ⟨q, hq, hqp, hcase⟩ := mem_nextHoles.mp hx2
    have hqr := hrange q hq
    rcases hcase with ⟨rfl, hg⟩ | ⟨rfl, hg⟩
    · exact ⟨⟨q, hq, hqp, Or.inl rfl⟩, by omega, by omega⟩
    · exact ⟨⟨q, hq, hqp, Or.inr rfl⟩, by omega, by omega⟩
  · rintro ⟨⟨q, hq, hqp, hcase⟩, hx0, hxN⟩
    have hqr := hrange q hq
    show x ∈ nextHoles (runGame choice n moves).holeCount
      (runGame choice n moves).possibleHoles p
    rcases hcase with rfl | rfl
    · exact mem_nextHoles.mpr ⟨q, hq, hqp, Or.inl ⟨rfl, by omega⟩⟩
    · exact mem_nextHoles.mpr ⟨q, hq, hqp, Or.inr ⟨rfl, by omega⟩⟩

/-- Witness for C2: from the fresh N = 3 board, inspecting 1 leads to a set
containing 1 (it is the expansion of both 0 and 2). -/
theorem nonwin_inspect_expansion_witness :
    (runGame zeroChoice 3 []).status = GameStatus.PLAYING ∧
    (runGame zeroChoice 3 []).possibleHoles ≠ [1] ∧
    ((1 : Int) ∈ (handleCheckHole zeroChoice (runGame zeroChoice 3 []) 1).possibleHoles ↔
      ((∃ q ∈ (runGame zeroChoice 3 []).possibleHoles, q ≠ 1 ∧
        ((1 : Int) = q - 1 ∨ (1 : Int) = q + 1)) ∧
        (0 : Int) ≤ 1 ∧ (1 : Int) < (runGame zeroChoice 3 []).holeCount)) :=
  ⟨by decide, by decide,
    nonwin_inspect_expansion zeroChoice zeroChoice 3 [] 1 1 (by decide) (by decide)⟩

/-- C3: for every board of at least 3 holes and every sequence of legal
inspections, the consistent-position set is non-empty whenever the game is
still PLAYING. -/
theorem playing_possibleHoles_nonempty (choice : Nat → Nat) (n : Int)
    (moves : List Int) (hn : 3 ≤ n) (hmoves : ∀ m ∈ moves, 0 ≤ m ∧ m < n)
    (hplay : (runGame choice n moves).status = GameStatus.PLAYING) :
    (runGame choice n moves).possibleHoles ≠ [] := by
  refine nonempty_foldl choice moves (resetGame n) ?_ (inv_reset n)
    (nonempty_reset n (by omega))
  show (2 : Int) ≤ n
  omega

/-- Witness for C3 on the N = 3 board after one legal inspection. -/
theorem playing_possibleHoles_nonempty_witness :
    (3 : Int) ≤ 3 ∧ (∀ m ∈ ([1] : List Int), 0 ≤ m ∧ m < 3) ∧
    (runGame zeroChoice 3 [1]).status = GameStatus.PLAYING ∧
    (runGame zeroChoice 3 [1]).possibleHoles ≠ [] :=
  ⟨by decide, by decide, by decide,
    playing_possibleHoles_nonempty zeroChoice 3 [1] (by decide) (by decide) (by decide)⟩

/-- C6 counterexample: inspecting position 5 on a fresh 5-hole board — a
position outside `[0, 5)` — is not rejected: the game state changes (the day
advances and history grows), refuting the claim that such a call leaves the
state unchanged. -/
theorem oob_inspect_mutates_state :
    (resetGame 5).holeCount ≤ 5 ∧
    handleCheckHole zeroChoice (resetGame 5) 5 ≠ resetGame 5 := by
  decide

/-- C6 amended: in a PLAYING state whose candidates all lie in `[0, holeCount)`
(as in every reachable state), inspecting a position outside `[0, holeCount)`
is not rejected; it is processed as an ordinary non-winning turn that never
wins and eliminates nothing: the status stays PLAYING, the day advances, the
set undergoes pure neighbor-expansion, and a `found = false` record whose
remaining count is the full set size is appended.  (In a non-PLAYING state any
inspection, out of range or not, is a no-op.) -/
theorem oob_inspect_processed (choice : Nat → Nat) (s : GameState) (p : Int)
    (hs : s.status = GameStatus.PLAYING)
    (hrange : ∀ q ∈ s.possibleHoles, 0 ≤ q ∧ q < s.holeCount)
    (hp : p < 0 ∨ s.holeCount ≤ p) :
    (handleCheckHole choice s p).status = GameStatus.PLAYING ∧
    (handleCheckHole choice s p).day = s.day + 1 ∧
    (handleCheckHole choice s p).possibleHoles =
      expandCandidates s.holeCount s.possibleHoles ∧
    ∃ e, (handleCheckHole choice s p).history = s.history ++ [e] ∧ e.found = false ∧
      e.remainingPossibilitiesCount = s.possibleHoles.length := by
  have hnw : s.possibleHoles ≠ [p] := by
    intro h
    have := hrange p (by rw [h]; exact List.mem_cons_self p [])
    rcases hp with h5 | h5 <;> omega
  have hfilter : s.possibleHoles.filter (fun h => decide (h ≠ p)) = s.possibleHoles :=
    List.filter_eq_self.mpr (fun q hq => decide_eq_true (by
      have := hrange q hq
      rcases hp with h5 | h5 <;> omega))
  rw [checkHole_nonwin choice s p hs hnw]
  refine ⟨hs, rfl, ?_, ⟨_, rfl, rfl, ?_⟩⟩
  · show nextHoles s.holeCount s.possibleHoles p =
      expandCandidates s.holeCount s.possibleHoles
    rw [nextHoles, hfilter]
  · show (s.possibleHoles.filter (fun h => decide (h ≠ p))).length =
      s.possibleHoles.length
    rw [hfilter]

/-- Witness for the amended C6 at the fresh 5-hole board and position 5. -/
theorem oob_inspect_processed_witness :
    (resetGame 5).status = GameStatus.PLAYING ∧
    (∀ q ∈ (resetGame 5).possibleHoles, 0 ≤ q ∧ q < (resetGame 5).holeCount) ∧
    ((5 : Int) < 0 ∨ (resetGame 5).holeCount ≤ 5) ∧
    ((handleCheckHole zeroChoice (resetGame 5) 5).status = GameStatus.PLAYING ∧
      (handleCheckHole zeroChoice (resetGame 5) 5).day = (resetGame 5).day + 1 ∧
      (handleCheckHole zeroChoice (resetGame 5) 5).possibleHoles =
        expandCandidates (resetGame 5).holeCount (resetGame 5).possibleHoles ∧
      ∃ e, (handleCheckHole zeroChoice (resetGame 5) 5).history =
        (resetGame 5).history ++ [e] ∧ e.found = false ∧
        e.remainingPossibilitiesCount = (resetGame 5).possibleHoles.length) :=
  ⟨by decide, by decide, by decide,
    oob_inspect_processed zeroChoice (resetGame 5) 5 (by decide) (by decide) (by decide)⟩

/-- C7: once the status is WON, any further inspection is rejected by the
status guard and leaves history, possibleHoles, day and status exactly
unchanged (indeed the whole state is unchanged). -/
theorem inspect_after_won_noop (choice : Nat → Nat) (s : GameState) (p : Int)
    (h : s.status = GameStatus.WON) :
    (handleCheckHole choice s p).history = s.history ∧
    (handleCheckHole choice s p).possibleHoles = s.possibleHoles ∧
    (handleCheckHole choice s p).day = s.day ∧
    (handleCheckHole choice s p).status = s.status := by
  have heq : handleCheckHole choice s p = s := by
    apply checkHole_not_playing
    rw [h]
    decide
  rw [heq]
  exact ⟨rfl, rfl, rfl, rfl⟩

/-- Witness for C7 at the WON state reached by Scenario A/B (N = 3, inspect 1
twice), inspecting hole 0 afterwards. -/
theorem inspect_after_won_noop_witness :
    (runGame zeroChoice 3 [1, 1]).status = GameStatus.WON ∧
    ((handleCheckHole zeroChoice (runGame zeroChoice 3 [1, 1]) 0).history =
        (runGame zeroChoice 3 [1, 1]).history ∧
      (handleCheckHole zeroChoice (runGame zeroChoice 3 [1, 1]) 0).possibleHoles =
        (runGame zeroChoice 3 [1, 1]).possibleHoles ∧
      (handleCheckHole zeroChoice (runGame zeroChoice 3 [1, 1]) 0).day =
        (runGame zeroChoice 3 [1, 1]).day ∧
      (handleCheckHole zeroChoice (runGame zeroChoice 3 [1, 1]) 0).status =
        (runGame zeroChoice 3 [1, 1]).status) :=
  ⟨by decide,
    inspect_after_won_noop zeroChoice (runGame zeroChoice 3 [1, 1]) 0 (by decide)⟩

/-- C4: at the moment a reachable PLAYING state wins on position `p` (its set
is `[p]`), the trajectory produced by the path reconstructor from the engine's
snapshot history and turn history has length D (the snapshot-history length),
ends at the winning position, makes steps of absolute difference exactly 1,
and avoids the checked position of every earlier day. -/
theorem reconstructed_path_valid (choice choice2 : Nat → Nat) (n : Int)
    (moves : List Int) (p : Int)
    (hs : (runGame choice n moves).status = GameStatus.PLAYING)
    (hwin : (runGame choice n moves).possibleHoles = [p]) :
    (backtrackPath choice2 (runGame choice n moves).candidatesHistory
      (runGame choice n moves).history p).length =
        (runGame choice n moves).candidatesHistory.length ∧
    (backtrackPath choice2 (runGame choice n moves).candidatesHistory
      (runGame choice n moves).history p).getLast? = some p ∧
    ∀ i, i + 1 < (backtrackPath choice2 (runGame choice n moves).candidatesHistory
        (runGame choice n moves).history p).length →
      ((backtrackPath choice2 (runGame choice n moves).candidatesHistory
        (runGame choice n moves).history p).getD i 0 -
       (backtrackPath choice2 (runGame choice n moves).candidatesHistory
        (runGame choice n moves).history p).getD (i + 1) 0).natAbs = 1 ∧
      (backtrackPath choice2 (runGame choice n moves).candidatesHistory
        (runGame choice n moves).history p).getD i 0 ≠
        ((runGame choice n moves).history.getD i defaultEntry).checkedHoleIndex := by
  obtain ⟨hlen, hlast, hsteps, -⟩ :=
    backtrackPath_win_spec choice2 (runGame choice n moves) p
      (inv_run choice n moves) hs hwin
  refine ⟨hlen, hlast, ?_⟩
  intro i hi
  rw [hlen] at hi
  exact hsteps i hi

/-- Witness for C4 at the win moment of Scenario B (N = 3, set `[1]` on day 2
after inspecting 1 on day 1). -/
theorem reconstructed_path_valid_witness :
    (runGame zeroChoice 3 [1]).status = GameStatus.PLAYING ∧
    (runGame zeroChoice 3 [1]).possibleHoles = [1] ∧
    ((backtrackPath zeroChoice (runGame zeroChoice 3 [1]).candidatesHistory
      (runGame zeroChoice 3 [1]).history 1).length =
        (runGame zeroChoice 3 [1]).candidatesHistory.length ∧
    (backtrackPath zeroChoice (runGame zeroChoice 3 [1]).candidatesHistory
      (runGame zeroChoice 3 [1]).history 1).getLast? = some 1 ∧
    ∀ i, i + 1 < (backtrackPath zeroChoice (runGame zeroChoice 3 [1]).candidatesHistory
        (runGame zeroChoice 3 [1]).history 1).length →
      ((backtrackPath zeroChoice (runGame zeroChoice 3 [1]).candidatesHistory
        (runGame zeroChoice 3 [1]).history 1).getD i 0 -
       (backtrackPath zeroChoice (runGame zeroChoice 3 [1]).candidatesHistory
        (runGame zeroChoice 3 [1]).history 1).getD (i + 1) 0).natAbs = 1 ∧
      (backtrackPath zeroChoice (runGame zeroChoice 3 [1]).candidatesHistory
        (runGame zeroChoice 3 [1]).history 1).getD i 0 ≠
        ((runGame zeroChoice 3 [1]).history.getD i defaultEntry).checkedHoleIndex) :=
  ⟨by decide, by decide,
    reconstructed_path_valid zeroChoice zeroChoice 3 [1] 1 (by decide) (by decide)⟩

/-- C5: on engine-produced inputs (a reachable PLAYING state winning on `p`),
the backward induction of the path reconstructor finds a non-empty set of
valid predecessors at every step, so its no-valid-parent fallback branch is
never taken, whatever the random choices are. -/
theorem reconstruct_no_fallback (choice choice2 : Nat → Nat) (n : Int)
    (moves : List Int) (p : Int)
    (hs : (runGame choice n moves).status = GameStatus.PLAYING)
    (hwin : (runGame choice n moves).possibleHoles = [p]) :
    noFallbackRun choice2 (runGame choice n moves).candidatesHistory
      (runGame choice n moves).history
      ((runGame choice n moves).candidatesHistory.length - 1) p = true :=
  (backtrackPath_win_spec choice2 (runGame choice n moves) p
    (inv_run choice n moves) hs hwin).2.2.2

/-- Witness for C5 at the win moment of Scenario B. -/
theorem reconstruct_no_fallback_witness :
    (runGame zeroChoice 3 [1]).status = GameStatus.PLAYING ∧
    (runGame zeroChoice 3 [1]).possibleHoles = [1] ∧
    noFallbackRun zeroChoice (runGame zeroChoice 3 [1]).candidatesHistory
      (runGame zeroChoice 3 [1]).history
      ((runGame zeroChoice 3 [1]).candidatesHistory.length - 1) 1 = true :=
  ⟨by decide, by decide,
    reconstruct_no_fallback zeroChoice zeroChoice 3 [1] 1 (by decide) (by decide)⟩

/-- C8: in every reachable state, `candidatesHistory` has exactly one more
entry than the number of recorded non-winning turns (the `found = false`
entries of `history`): the initial day-1 set plus one appended snapshot per
non-winning inspection, with none appended on the winning one. -/
theorem candidatesHistory_count (choice : Nat → Nat) (n : Int) (moves : List Int) :
    (runGame choice n moves).candidatesHistory.length =
      1 + ((runGame choice n moves).history.filter (fun e => !e.found)).length :=
  (inv_run choice n moves).count

/-- C9 counterexample: `resetGame 0` (a hole count below 1) is not rejected —
it yields a fresh PLAYING game state (with an empty candidate set), refuting
the claim that the engine defensively rejects `N < 1`. -/
theorem resetGame_accepts_zero :
    (0 : Int) < 1 ∧ (resetGame 0).status = GameStatus.PLAYING ∧
    (resetGame 0).day = 1 ∧ (resetGame 0).history = [] ∧
    (resetGame 0).possibleHoles = [] := by
  decide

/-- C9 amended: `resetGame` performs no validation of the hole count: for any
`N < 1` it still produces a fresh PLAYING state, whose `possibleHoles` is
empty and whose snapshot history holds a single empty snapshot. -/
theorem resetGame_no_validation (n : Int) (hn : n < 1) :
    (resetGame n).status = GameStatus.PLAYING ∧
    (resetGame n).possibleHoles = [] ∧
    (resetGame n).candidatesHistory = [[]] ∧
    (resetGame n).day = 1 ∧
    (resetGame n).history = [] := by
  have h0 : n.toNat = 0 := by omega
  refine ⟨rfl, ?_, ?_, rfl, rfl⟩
  · show List.map (fun i : Nat => (i : Int)) (List.range n.toNat) = []
    rw [h0]
    rfl
  · show [List.map (fun i : Nat => (i : Int)) (List.range n.toNat)] = [[]]
    rw [h0]
    rfl

/-- Witness for the amended C9 at hole count -3. -/
theorem resetGame_no_validation_witness :
    (-3 : Int) < 1 ∧
    ((resetGame (-3)).status = GameStatus.PLAYING ∧
      (resetGame (-3)).possibleHoles = [] ∧
      (resetGame (-3)).candidatesHistory = [[]] ∧
      (resetGame (-3)).day = 1 ∧
      (resetGame (-3)).history = []) :=
  ⟨by decide, resetGame_no_validation (-3) (by decide)⟩

/-- C10: in every reachable PLAYING state, the last entry of
`candidatesHistory` is exactly the current `possibleHoles` list. -/
theorem lastSnapshot_eq_possibleHoles (choice : Nat → Nat) (n : Int)
    (moves : List Int)
    (h : (runGame choice n moves).status = GameStatus.PLAYING) :
    (runGame choice n moves).candidatesHistory.getLast? =
      some (runGame choice n moves).possibleHoles :=
  (inv_run choice n moves).lastSnap h

/-- Witness for C10 on the 5-hole board after one inspection. -/
theorem lastSnapshot_eq_possibleHoles_witness :
    (runGame zeroChoice 5 [2]).status = GameStatus.PLAYING ∧
    (runGame zeroChoice 5 [2]).candidatesHistory.getLast? =
      some (runGame zeroChoice 5 [2]).possibleHoles :=
  ⟨by decide, lastSnapshot_eq_possibleHoles zeroChoice 5 [2] (by decide)⟩

end RabbitHoles
